import Mathlib

/-!
Verification of the hybrid two-way-recall retrieval core of the
docdb-vector-search repository.

The embedded code is the `similarity_search` function of the two notebooks
(`hybrid-retrieval/genai-docdb-similiarity-search-gaming_en.ipynb` and
`Two-way recall/genai-docdb-similiarity-search-gaming.ipynb`), whose merge
loop, orchestration and per-candidate generation loop are identical in both.
Python dictionaries returned by the two searches are embedded as the
`Candidate` structure; the external services (Bedrock LLM, embedding model,
DocumentDB vector search and text search) are abstracted as a `Backend`
record of functions, and the external calls the orchestration issues are
logged as a list of `ProviderCall` events in source order.
-/

namespace DocdbVectorSearch

/-- A document of the `games` collection as the two searches return it and
as the merge loop and the generation loop consume it: fields written by the
ingestion cell (`name`, `descriptions`, `recommendation`, `url`,
`descriptions_embeddings`) plus the `textScore` metadata field that only
text-search hits carry (hence an `Option`).  Numeric float values are
embedded as rationals; no claim computes with them. -/
structure Candidate where
  name : String
  descriptions : String
  recommendation : String
  url : String
  descriptions_embeddings : List Rat
  score : Option Rat
deriving DecidableEq, Repr

/-- The merge loop of `similarity_search`, with the hard-coded bound `2` of
`len(result) < 2` generalized to a cap parameter (the spec's configured cap,
default 2).  `seen` embeds the Python `unique_set`, `result` the `result`
accumulator; the walked list is `merged_list`.  An item is appended exactly
when its name is unseen and the result still has room, exactly as the
Python condition `dict_str not in unique_set and len(result) < 2`. -/
def mergeLoop (cap : Nat) : List String → List Candidate → List Candidate → List Candidate
  | _, result, [] => result
  | seen, result, item :: rest =>
    if item.name ∉ seen ∧ result.length < cap then
      mergeLoop cap (item.name :: seen) (result ++ [item]) rest
    else
      mergeLoop cap seen result rest

/-- The construction of `merged_list` in `similarity_search`: an empty list,
then one append loop over the text-search hits `tsr`, then one append loop
over the vector-search hits `r` (text-search hits strictly first). -/
def buildMergedList (tsr r : List Candidate) : List Candidate :=
  let afterTsr := tsr.foldl (fun merged doc => merged ++ [doc]) []
  r.foldl (fun merged doc => merged ++ [doc]) afterTsr

/-- The Recall Merger extracted from `similarity_search`: build
`merged_list` from the text-search hits `tsr` and the vector-search hits
`r`, then run the dedup-and-cap loop over it starting from an empty
`unique_set` and an empty `result`. -/
def recallMerge (cap : Nat) (tsr r : List Candidate) : List Candidate :=
  mergeLoop cap [] [] (buildMergedList tsr r)

/-- Uncapped name-keyed deduplication keeping first occurrences, relative
to an initial set of already-seen names.  Normal form of the merge loop:
the loop equals `take cap` of this. -/
def dedupKeyed : List String → List Candidate → List Candidate
  | _, [] => []
  | seen, x :: xs =>
    if x.name ∈ seen then dedupKeyed seen xs
    else x :: dedupKeyed (x.name :: seen) xs

/-- The set of seen names after running `dedupKeyed` over a list. -/
def seenAfter : List String → List Candidate → List String
  | seen, [] => seen
  | seen, x :: xs =>
    if x.name ∈ seen then seenAfter seen xs
    else seenAfter (x.name :: seen) xs

/-- `dedupKeyed` on the name strings alone. -/
def dedupStr : List String → List String → List String
  | _, [] => []
  | seen, x :: xs =>
    if x ∈ seen then dedupStr seen xs
    else x :: dedupStr (x :: seen) xs

theorem foldl_push (l : List Candidate) :
    ∀ acc : List Candidate, l.foldl (fun merged doc => merged ++ [doc]) acc = acc ++ l := by
  induction l with
  | nil => intro acc; simp
  | cons x xs ih => intro acc; simp [List.foldl, ih]

theorem buildMergedList_eq (tsr r : List Candidate) : buildMergedList tsr r = tsr ++ r := by
  simp [buildMergedList, foldl_push]

theorem mergeLoop_eq_take (cap : Nat) :
    ∀ (xs : List Candidate) (seen : List String) (result : List Candidate),
      result.length ≤ cap →
      mergeLoop cap seen result xs = result ++ (dedupKeyed seen xs).take (cap - result.length) := by
  intro xs
  induction xs with
  | nil => intro seen result _; simp [mergeLoop, dedupKeyed]
  | cons x xs ih =>
    intro seen result hle
    by_cases hs : x.name ∈ seen
    · have hcond : ¬(x.name ∉ seen ∧ result.length < cap) := by simp [hs]
      rw [mergeLoop, if_neg hcond, dedupKeyed, if_pos hs]
      exact ih seen result hle
    · by_cases hlt : result.length < cap
      · have hcond : x.name ∉ seen ∧ result.length < cap := ⟨hs, hlt⟩
        rw [mergeLoop, if_pos hcond, dedupKeyed, if_neg hs]
        rw [ih (x.name :: seen) (result ++ [x]) (by simpa using hlt)]
        have hsucc : cap - result.length = (cap - (result ++ [x]).length) + 1 := by
          simp only [List.length_append, List.length_singleton]
          omega
        rw [hsucc, List.take_succ_cons]
        simp
      · have hcond : ¬(x.name ∉ seen ∧ result.length < cap) := by
          intro hc; exact hlt hc.2
        have hfull : cap - result.length = 0 := by omega
        rw [mergeLoop, if_neg hcond, dedupKeyed, if_neg hs]
        rw [ih seen result hle, hfull]
        simp

theorem recallMerge_eq_take (cap : Nat) (tsr r : List Candidate) :
    recallMerge cap tsr r = (dedupKeyed [] (tsr ++ r)).take cap := by
  rw [recallMerge, buildMergedList_eq, mergeLoop_eq_take cap _ [] [] (Nat.zero_le cap)]
  simp

theorem map_name_dedupKeyed :
    ∀ (seen : List String) (xs : List Candidate),
      (dedupKeyed seen xs).map Candidate.name = dedupStr seen (xs.map Candidate.name) := by
  intro seen xs
  induction xs generalizing seen with
  | nil => simp [dedupKeyed, dedupStr]
  | cons x xs ih =>
    by_cases hs : x.name ∈ seen
    · simp [dedupKeyed, dedupStr, hs, ih]
    · simp [dedupKeyed, dedupStr, hs, ih]

theorem mem_dedupStr :
    ∀ (seen l : List String) (s : String), s ∈ dedupStr seen l ↔ s ∈ l ∧ s ∉ seen := by
  intro seen l
  induction l generalizing seen with
  | nil => intro s; simp [dedupStr]
  | cons x xs ih =>
    intro s
    by_cases hs : x ∈ seen
    · rw [dedupStr, if_pos hs, ih]
      constructor
      · rintro ⟨h1, h2⟩
        exact ⟨List.mem_cons_of_mem x h1, h2⟩
      · rintro ⟨h1, h2⟩
        rcases List.mem_cons.mp h1 with h | h
        · exact absurd (h ▸ hs) h2
        · exact ⟨h, h2⟩
    · rw [dedupStr, if_neg hs]
      constructor
      · intro h
        rcases List.mem_cons.mp h with h | h
        · exact ⟨h ▸ List.mem_cons_self x xs, h ▸ hs⟩
        · rcases (ih (x :: seen) s).mp h with ⟨h1, h2⟩
          refine ⟨List.mem_cons_of_mem x h1, fun hc => h2 (List.mem_cons_of_mem x hc)⟩
      · rintro ⟨h1, h2⟩
        rcases List.mem_cons.mp h1 with h | h
        · exact h ▸ List.mem_cons_self x _
        · by_cases hx : s = x
          · exact hx ▸ List.mem_cons_self x _
          · exact List.mem_cons_of_mem x ((ih (x :: seen) s).mpr
              ⟨h, fun hc => (List.mem_cons.mp hc).elim hx h2⟩)

theorem nodup_dedupStr : ∀ (seen l : List String), (dedupStr seen l).Nodup := by
  intro seen l
  induction l generalizing seen with
  | nil => simp [dedupStr]
  | cons x xs ih =>
    by_cases hs : x ∈ seen
    · rw [dedupStr, if_pos hs]; exact ih seen
    · rw [dedupStr, if_neg hs]
      refine List.Nodup.cons ?_ (ih (x :: seen))
      intro hc
      exact ((mem_dedupStr (x :: seen) xs x).mp hc).2 (List.mem_cons_self x seen)

theorem length_dedupStr_nil (l : List String) : (dedupStr [] l).length = l.dedup.length := by
  have h1 : (dedupStr [] l).Nodup := nodup_dedupStr [] l
  have h2 : l.dedup.Nodup := l.nodup_dedup
  have hmem : ∀ s, s ∈ dedupStr [] l ↔ s ∈ l.dedup := by
    intro s
    rw [mem_dedupStr, List.mem_dedup]
    simp
  exact ((List.perm_ext_iff_of_nodup h1 h2).2 hmem).length_eq

theorem recallMerge_map_name (cap : Nat) (tsr r : List Candidate) :
    (recallMerge cap tsr r).map Candidate.name =
      (dedupStr [] ((tsr ++ r).map Candidate.name)).take cap := by
  rw [recallMerge_eq_take, List.map_take, map_name_dedupKeyed]

/-- Claim C1: for every pair of input hit lists and every cap, the merged
result's length equals the minimum of the cap and the number of distinct
names across both input lists; in particular it is at most the cap and at
most the number of distinct names. -/
theorem recallMerge_length (cap : Nat) (tsr r : List Candidate) :
    (recallMerge cap tsr r).length = min cap (((tsr ++ r).map Candidate.name).dedup.length) := by
  rw [recallMerge_eq_take, List.length_take]
  have hlen : (dedupKeyed [] (tsr ++ r)).length =
      ((tsr ++ r).map Candidate.name).dedup.length := by
    calc (dedupKeyed [] (tsr ++ r)).length
        = ((dedupKeyed [] (tsr ++ r)).map Candidate.name).length := by
          rw [List.length_map]
      _ = (dedupStr [] ((tsr ++ r).map Candidate.name)).length := by
          rw [map_name_dedupKeyed]
      _ = ((tsr ++ r).map Candidate.name).dedup.length := length_dedupStr_nil _
  rw [hlen]

/-- Claim C2: no name appears twice in a merged result: the list of names
of the merged candidates has no duplicates, for any inputs and cap. -/
theorem recallMerge_names_nodup (cap : Nat) (tsr r : List Candidate) :
    ((recallMerge cap tsr r).map Candidate.name).Nodup := by
  rw [recallMerge_map_name]
  exact (nodup_dedupStr [] _).sublist (List.take_sublist cap _)

theorem dedupKeyed_sublist :
    ∀ (seen : List String) (xs : List Candidate), List.Sublist (dedupKeyed seen xs) xs := by
  intro seen xs
  induction xs generalizing seen with
  | nil => simp [dedupKeyed]
  | cons x xs ih =>
    by_cases hs : x.name ∈ seen
    · rw [dedupKeyed, if_pos hs]
      exact (ih seen).cons x
    · rw [dedupKeyed, if_neg hs]
      exact (ih (x.name :: seen)).cons₂ x

theorem name_not_seen_of_mem_dedupKeyed :
    ∀ (seen : List String) (xs : List Candidate) (c : Candidate),
      c ∈ dedupKeyed seen xs → c.name ∉ seen := by
  intro seen xs
  induction xs generalizing seen with
  | nil => intro c hc; simp [dedupKeyed] at hc
  | cons x xs ih =>
    intro c hc
    by_cases hs : x.name ∈ seen
    · rw [dedupKeyed, if_pos hs] at hc
      exact ih seen c hc
    · rw [dedupKeyed, if_neg hs] at hc
      rcases List.mem_cons.mp hc with h | h
      · exact h ▸ hs
      · intro hmem
        exact ih (x.name :: seen) c h (List.mem_cons_of_mem _ hmem)

theorem find?_dedupKeyed :
    ∀ (seen : List String) (xs : List Candidate) (c : Candidate),
      c ∈ dedupKeyed seen xs → xs.find? (fun d => d.name == c.name) = some c := by
  intro seen xs
  induction xs generalizing seen with
  | nil => intro c hc; simp [dedupKeyed] at hc
  | cons x xs ih =>
    intro c hc
    by_cases hs : x.name ∈ seen
    · rw [dedupKeyed, if_pos hs] at hc
      have hne : c.name ≠ x.name := by
        intro he
        exact name_not_seen_of_mem_dedupKeyed seen xs c hc (he ▸ hs)
      have hbeq : (x.name == c.name) = false := by
        simp [Ne.symm hne]
      rw [List.find?_cons, hbeq]
      exact ih seen c hc
    · rw [dedupKeyed, if_neg hs] at hc
      rcases List.mem_cons.mp hc with h | h
      · subst h
        rw [List.find?_cons]
        simp
      · have hns := name_not_seen_of_mem_dedupKeyed (x.name :: seen) xs c h
        have hne : c.name ≠ x.name := fun he => hns (he ▸ List.mem_cons_self _ _)
        have hbeq : (x.name == c.name) = false := by
          simp [Ne.symm hne]
        rw [List.find?_cons, hbeq]
        exact ih (x.name :: seen) c h

theorem mem_seenAfter :
    ∀ (seen : List String) (xs : List Candidate) (s : String),
      s ∈ seenAfter seen xs ↔ s ∈ seen ∨ s ∈ xs.map Candidate.name := by
  intro seen xs
  induction xs generalizing seen with
  | nil => intro s; simp [seenAfter]
  | cons x xs ih =>
    intro s
    by_cases hs : x.name ∈ seen
    · rw [seenAfter, if_pos hs, ih]
      simp only [List.map_cons, List.mem_cons]
      constructor
      · rintro (h | h)
        · exact Or.inl h
        · exact Or.inr (Or.inr h)
      · rintro (h | h | h)
        · exact Or.inl h
        · exact Or.inl (h ▸ hs)
        · exact Or.inr h
    · rw [seenAfter, if_neg hs, ih]
      simp only [List.map_cons, List.mem_cons]
      tauto

theorem dedupKeyed_append :
    ∀ (seen : List String) (xs ys : List Candidate),
      dedupKeyed seen (xs ++ ys) = dedupKeyed seen xs ++ dedupKeyed (seenAfter seen xs) ys := by
  intro seen xs ys
  induction xs generalizing seen with
  | nil => simp [dedupKeyed, seenAfter]
  | cons x xs ih =>
    by_cases hs : x.name ∈ seen
    · rw [List.cons_append, dedupKeyed, if_pos hs, dedupKeyed, if_pos hs, seenAfter, if_pos hs]
      exact ih seen
    · rw [List.cons_append, dedupKeyed, if_neg hs, dedupKeyed, if_neg hs, seenAfter, if_neg hs]
      rw [ih (x.name :: seen)]
      simp

/-- Claim C3: the merged list is built lexical-hits-first then vector hits
(concatenation in given order); a name occurring in the lexical input sits
in the merged result at exactly the position it has when the merge is run
on the lexical list alone, and the candidate emitted for that name is its
first lexical-side occurrence. -/
theorem recallMerge_lexical_priority (cap : Nat) (tsr r : List Candidate) (nm : String)
    (hnm : nm ∈ tsr.map Candidate.name) :
    buildMergedList tsr r = tsr ++ r ∧
    (∀ (i : Nat) (c : Candidate),
      ((recallMerge cap tsr r)[i]? = some c ∧ c.name = nm) ↔
      ((recallMerge cap tsr [])[i]? = some c ∧ c.name = nm)) ∧
    (∀ (i : Nat) (c : Candidate),
      (recallMerge cap tsr r)[i]? = some c → c.name = nm →
      tsr.find? (fun d => d.name == nm) = some c) := by
  have hfull : recallMerge cap tsr r =
      (dedupKeyed [] tsr).take cap ++
        (dedupKeyed (seenAfter [] tsr) r).take (cap - (dedupKeyed [] tsr).length) := by
    rw [recallMerge_eq_take, dedupKeyed_append, List.take_append_eq_append_take]
  have hlex : recallMerge cap tsr [] = (dedupKeyed [] tsr).take cap := by
    rw [recallMerge_eq_take]
    simp
  have hBnm : ∀ c : Candidate, c ∈ dedupKeyed (seenAfter [] tsr) r → c.name ≠ nm := by
    intro c hc he
    apply name_not_seen_of_mem_dedupKeyed _ _ _ hc
    rw [he, mem_seenAfter]
    exact Or.inr hnm
  refine ⟨buildMergedList_eq tsr r, ?_, ?_⟩
  · intro i c
    constructor
    · rintro ⟨hi, hcn⟩
      refine ⟨?_, hcn⟩
      rw [hfull] at hi
      by_cases hlt : i < ((dedupKeyed [] tsr).take cap).length
      · rw [List.getElem?_append_left hlt] at hi
        rw [hlex]
        exact hi
      · exfalso
        rw [List.getElem?_append_right (Nat.le_of_not_lt hlt)] at hi
        exact hBnm c (List.take_subset _ _ (List.getElem?_mem hi)) hcn
    · rintro ⟨hi, hcn⟩
      refine ⟨?_, hcn⟩
      rw [hlex] at hi
      have hlt : i < ((dedupKeyed [] tsr).take cap).length := (List.getElem?_eq_some.mp hi).1
      rw [hfull, List.getElem?_append_left hlt]
      exact hi
  · intro i c hi hcn
    have hmem : c ∈ (dedupKeyed [] tsr).take cap ++
        (dedupKeyed (seenAfter [] tsr) r).take (cap - (dedupKeyed [] tsr).length) := by
      rw [hfull] at hi
      exact List.getElem?_mem hi
    rcases List.mem_append.mp hmem with h | h
    · have := find?_dedupKeyed [] tsr c (List.take_subset _ _ h)
      rw [hcn] at this
      exact this
    · exact absurd hcn (hBnm c (List.take_subset _ _ h))

def wA3 : Candidate := ⟨"A", "da", "reca", "ua", [], some 9⟩

def wB3 : Candidate := ⟨"B", "db", "recb", "ub", [], some 8⟩

def wB3v : Candidate := ⟨"B", "db", "recb", "ub", [1], none⟩

def wD3 : Candidate := ⟨"D", "dd", "recd", "ud", [2], none⟩

def wLex3 : List Candidate := [wA3, wB3]

def wVec3 : List Candidate := [wB3v, wD3]

theorem recallMerge_lexical_priority_witness :
    "B" ∈ wLex3.map Candidate.name ∧ wLex3.find? (fun d => d.name == "B") = some wB3 :=
  ⟨by decide,
    (recallMerge_lexical_priority 2 wLex3 wVec3 "B" (by decide)).2.2 1 wB3 (by decide) (by decide)⟩

/-- Claim C7: the merge reads only names, never scores: two input pairs
with the same names in the same order but arbitrarily different score,
embedding and text fields merge to the same names in the same order. -/
theorem recallMerge_score_blind (cap : Nat) (tsr₁ r₁ tsr₂ r₂ : List Candidate)
    (ht : tsr₁.map Candidate.name = tsr₂.map Candidate.name)
    (hr : r₁.map Candidate.name = r₂.map Candidate.name) :
    (recallMerge cap tsr₁ r₁).map Candidate.name =
      (recallMerge cap tsr₂ r₂).map Candidate.name := by
  rw [recallMerge_map_name, recallMerge_map_name, List.map_append, List.map_append, ht, hr]

def wT7a : List Candidate := [⟨"X", "d1", "r1", "u1", [1, 2], some 5⟩, ⟨"Y", "d2", "r2", "u2", [], some 4⟩]

def wT7b : List Candidate := [⟨"X", "e1", "s1", "v1", [9], some 77⟩, ⟨"Y", "e2", "s2", "v2", [8], none⟩]

def wR7a : List Candidate := [⟨"Z", "d3", "r3", "u3", [3], none⟩]

def wR7b : List Candidate := [⟨"Z", "e3", "s3", "v3", [], some 1⟩]

theorem recallMerge_score_blind_witness :
    (wT7a.map Candidate.name = wT7b.map Candidate.name ∧
      wR7a.map Candidate.name = wR7b.map Candidate.name) ∧
    (recallMerge 2 wT7a wR7a).map Candidate.name =
      (recallMerge 2 wT7b wR7b).map Candidate.name :=
  ⟨⟨by decide, by decide⟩, recallMerge_score_blind 2 wT7a wR7a wT7b wR7b (by decide) (by decide)⟩

/-- Modelled from the spec (reference algorithm of §4.2, compared against
the implemented loop): walk the concatenated sequence once, emit each item
whose identity key has not been emitted, and stop scanning as soon as the
cap many distinct items have been emitted. -/
def specScanMerge (cap : Nat) : List String → List Candidate → List Candidate → List Candidate
  | _, result, [] => result
  | seen, result, x :: xs =>
    if cap ≤ result.length then result
    else if x.name ∈ seen then specScanMerge cap seen result xs
    else specScanMerge cap (x.name :: seen) (result ++ [x]) xs

theorem mergeLoop_of_full (cap : Nat) :
    ∀ (xs : List Candidate) (seen : List String) (result : List Candidate),
      cap ≤ result.length → mergeLoop cap seen result xs = result := by
  intro xs
  induction xs with
  | nil => intro seen result _; rfl
  | cons x xs ih =>
    intro seen result hfull
    rw [mergeLoop, if_neg (fun h => Nat.not_lt.mpr hfull h.2)]
    exact ih seen result hfull

theorem specScanMerge_eq_mergeLoop (cap : Nat) :
    ∀ (xs : List Candidate) (seen : List String) (result : List Candidate),
      specScanMerge cap seen result xs = mergeLoop cap seen result xs := by
  intro xs
  induction xs with
  | nil => intro seen result; rfl
  | cons x xs ih =>
    intro seen result
    by_cases hfull : cap ≤ result.length
    · rw [specScanMerge, if_pos hfull, mergeLoop, if_neg (fun h => Nat.not_lt.mpr hfull h.2),
        mergeLoop_of_full cap xs seen result hfull]
    · by_cases hs : x.name ∈ seen
      · rw [specScanMerge, if_neg hfull, if_pos hs, mergeLoop, if_neg (by simp [hs]), ih]
      · rw [specScanMerge, if_neg hfull, if_neg hs, mergeLoop,
          if_pos ⟨hs, Nat.not_le.mp hfull⟩, ih]

/-- Claim C9: the implemented full-walk merge (which only guards each
emission by the unseen-name and room-left conditions) and the spec's
reference algorithm with an early stop once the cap is reached produce the
same result for every pair of inputs and every cap. -/
theorem recallMerge_no_early_break_equiv (cap : Nat) (tsr r : List Candidate) :
    specScanMerge cap [] [] (tsr ++ r) = recallMerge cap tsr r := by
  rw [recallMerge, buildMergedList_eq, specScanMerge_eq_mergeLoop]

/-- Claim C10: every merged candidate is drawn unchanged (all fields,
score included) from one of the two input lists, and the merged result is
a subsequence of the concatenation of lexical hits and vector hits. -/
theorem recallMerge_from_inputs (cap : Nat) (tsr r : List Candidate) :
    List.Sublist (recallMerge cap tsr r) (tsr ++ r) ∧
    ∀ c, c ∈ recallMerge cap tsr r → c ∈ tsr ∨ c ∈ r := by
  have hsub : List.Sublist (recallMerge cap tsr r) (tsr ++ r) := by
    rw [recallMerge_eq_take]
    exact (List.take_sublist _ _).trans (dedupKeyed_sublist [] (tsr ++ r))
  exact ⟨hsub, fun c hc => List.mem_append.mp (hsub.subset hc)⟩

theorem recallMerge_from_inputs_witness : wB3 ∈ wLex3 ∨ wB3 ∈ wVec3 :=
  (recallMerge_from_inputs 2 wLex3 wVec3).2 wB3 (by decide)

/-- One iteration of the Python merge loop as a transition relation on the
state (remaining `merged_list`, `unique_set`, `result`): either the guard
`dict_str not in unique_set and len(result) < cap` holds and the item is
emitted, or it does not and the item is skipped. -/
inductive MergeStep (cap : Nat) :
    List Candidate × List String × List Candidate →
      List Candidate × List String × List Candidate → Prop
  | emit (item : Candidate) (rest : List Candidate) (seen : List String)
      (result : List Candidate) :
      item.name ∉ seen → result.length < cap →
      MergeStep cap (item :: rest, seen, result) (rest, item.name :: seen, result ++ [item])
  | skip (item : Candidate) (rest : List Candidate) (seen : List String)
      (result : List Candidate) :
      ¬(item.name ∉ seen ∧ result.length < cap) →
      MergeStep cap (item :: rest, seen, result) (rest, seen, result)

/-- A complete run of the merge loop over `input`, starting from an empty
`unique_set` and an empty `result` and iterating until the input is
exhausted, producing `output`. -/
def MergeRun (cap : Nat) (input output : List Candidate) : Prop :=
  ∃ seenFinal, Relation.ReflTransGen (MergeStep cap) (input, [], []) ([], seenFinal, output)

theorem mergeStep_invariant {cap : Nat} {s t : List Candidate × List String × List Candidate}
    (h : MergeStep cap s t) :
    mergeLoop cap s.2.1 s.2.2 s.1 = mergeLoop cap t.2.1 t.2.2 t.1 := by
  cases h with
  | emit item rest seen result h1 h2 =>
    simp only
    rw [mergeLoop, if_pos ⟨h1, h2⟩]
  | skip item rest seen result h1 =>
    simp only
    rw [mergeLoop, if_neg h1]

theorem mergeRun_invariant {cap : Nat} {s t : List Candidate × List String × List Candidate}
    (h : Relation.ReflTransGen (MergeStep cap) s t) :
    mergeLoop cap s.2.1 s.2.2 s.1 = mergeLoop cap t.2.1 t.2.2 t.1 := by
  induction h with
  | refl => rfl
  | tail _ hstep ih => exact ih.trans (mergeStep_invariant hstep)

theorem mergeRun_total (cap : Nat) :
    ∀ (xs : List Candidate) (seen : List String) (result : List Candidate),
      ∃ seenFinal,
        Relation.ReflTransGen (MergeStep cap) (xs, seen, result)
          ([], seenFinal, mergeLoop cap seen result xs) := by
  intro xs
  induction xs with
  | nil => intro seen result; exact ⟨seen, Relation.ReflTransGen.refl⟩
  | cons x xs ih =>
    intro seen result
    by_cases hc : x.name ∉ seen ∧ result.length < cap
    · obtain ⟨sf, hrun⟩ := ih (x.name :: seen) (result ++ [x])
      refine ⟨sf, Relation.ReflTransGen.head (MergeStep.emit x xs seen result hc.1 hc.2) ?_⟩
      rw [mergeLoop, if_pos hc]
      exact hrun
    · obtain ⟨sf, hrun⟩ := ih seen result
      refine ⟨sf, Relation.ReflTransGen.head (MergeStep.skip x xs seen result hc) ?_⟩
      rw [mergeLoop, if_neg hc]
      exact hrun

/-- Claim C8: the merge is a pure deterministic function of the two input
lists and the cap: a complete run of the loop over the built merged list
always exists and produces `recallMerge`, and any two complete runs over
the same input produce the same output, whatever the interleaving of local
accumulator states. -/
theorem recallMerge_deterministic (cap : Nat) (tsr r : List Candidate) :
    MergeRun cap (buildMergedList tsr r) (recallMerge cap tsr r) ∧
    ∀ out₁ out₂, MergeRun cap (buildMergedList tsr r) out₁ →
      MergeRun cap (buildMergedList tsr r) out₂ → out₁ = out₂ := by
  have hval : ∀ out, MergeRun cap (buildMergedList tsr r) out → out = recallMerge cap tsr r := by
    rintro out ⟨sf, hrun⟩
    have := mergeRun_invariant hrun
    simpa [mergeLoop, recallMerge] using this.symm
  constructor
  · obtain ⟨sf, hrun⟩ := mergeRun_total cap (buildMergedList tsr r) [] []
    exact ⟨sf, hrun⟩
  · intro out₁ out₂ h₁ h₂
    rw [hval out₁ h₁, hval out₂ h₂]

theorem recallMerge_deterministic_witness :
    recallMerge 2 wLex3 wVec3 = [wA3, wB3] := by
  have h1 := (recallMerge_deterministic 2 wLex3 wVec3).1
  have he : recallMerge 2 wLex3 wVec3 = [wA3, wB3] := by decide
  have h2 : MergeRun 2 (buildMergedList wLex3 wVec3) [wA3, wB3] := he ▸ h1
  exact ((recallMerge_deterministic 2 wLex3 wVec3).2 (recallMerge 2 wLex3 wVec3) [wA3, wB3]
    h1 h2)

/-- An external call issued by `similarity_search`, in source order:
the translation LLM call, the embedding call, the `$search` vectorSearch
aggregate against DocumentDB, and the `$text` find against DocumentDB. -/
inductive ProviderCall where
  | translate (input : String)
  | embed (input : String)
  | vectorQuery (vector : List Rat) (similarity : String) (k : Nat)
  | textQuery (input : String)
deriving DecidableEq, Repr

/-- The external collaborators `similarity_search` closes over:
`timer_llm_claude3` (the Bedrock Claude call used for translation),
`generate_embeddings` (the Bedrock Titan embedding call), and the two
DocumentDB searches (the `$search` vector aggregate, keyed by query
vector, metric and k, and the `$text` find, keyed by the query text). -/
structure Backend where
  timer_llm_claude3 : String → String
  generate_embeddings : String → List Rat
  vector_search : List Rat → String → Nat → List Candidate
  text_search : String → List Candidate

/-- The fixed translation instruction prepended to the raw query before
the translation LLM call (text of the English notebook; the other
notebook differs only in the instruction being written in Chinese). -/
def translationPrompt : String :=
  "You are a translator, translate the following into English, without any additional rhetoric, just translate. In the translated content, remove the word game："

/-- The retrieval part of `similarity_search`: translate the raw query via
the LLM, embed the raw query (`data` is the dict whose `inputs` entry is
`search_text`), run the vector `$search` with metric euclidean and k = 2
on the embedding, run the `$text` find on the translated text, and merge
with the text-search hits first.  Returns the merged result together with
the log of external calls in source order. -/
def similarity_search (b : Backend) (search_text : String) :
    List Candidate × List ProviderCall :=
  let en_response := b.timer_llm_claude3 (translationPrompt ++ search_text)
  let data := search_text
  let res1 := b.generate_embeddings data
  let r := b.vector_search res1 "euclidean" 2
  let tsr := b.text_search en_response
  let result := recallMerge 2 tsr r
  (result,
    [ProviderCall.translate (translationPrompt ++ search_text),
     ProviderCall.embed data,
     ProviderCall.vectorQuery res1 "euclidean" 2,
     ProviderCall.textQuery en_response])

def embedArg : ProviderCall → Option String
  | ProviderCall.embed s => some s
  | _ => none

def textQueryArg : ProviderCall → Option String
  | ProviderCall.textQuery s => some s
  | _ => none

def vectorQueryArg : ProviderCall → Option (List Rat)
  | ProviderCall.vectorQuery v _ _ => some v
  | _ => none

/-- Claim C4: for every backend and raw query, the one embedding call
receives the original untranslated query, the one text-search call
receives the LLM translation of the query, the vector query is keyed by
the embedding of the raw query, and the returned list is the merge of the
text-search hits on the translation with the vector hits on the raw-query
embedding — so the translation never feeds the embedding and the raw text
never feeds the text search. -/
theorem similarity_search_branch_inputs (b : Backend) (q : String) :
    (similarity_search b q).2.filterMap embedArg = [q] ∧
    (similarity_search b q).2.filterMap textQueryArg =
      [b.timer_llm_claude3 (translationPrompt ++ q)] ∧
    (similarity_search b q).2.filterMap vectorQueryArg = [b.generate_embeddings q] ∧
    (similarity_search b q).1 =
      recallMerge 2 (b.text_search (b.timer_llm_claude3 (translationPrompt ++ q)))
        (b.vector_search (b.generate_embeddings q) "euclidean" 2) :=
  ⟨rfl, rfl, rfl, rfl⟩

def nullBackend : Backend :=
  ⟨fun s => s, fun _ => [], fun _ _ _ => [], fun _ => []⟩

/-- Claim C5 counterexample: the code has no empty-query guard — with a
concrete backend, running `similarity_search` on the empty string still
issues external calls (the call log is not empty), contradicting the
claim that an empty query short-circuits before any external call. -/
theorem empty_query_still_calls : (similarity_search nullBackend "").2 ≠ [] := by
  decide

/-- Claim C5 as amended: `similarity_search` performs no empty-query
validation and has no InvalidQuery condition: for every backend, the empty
query is processed like any other, issuing the translation, embedding,
vector-search and text-search calls. -/
theorem empty_query_no_guard (b : Backend) :
    (similarity_search b "").2 =
      [ProviderCall.translate translationPrompt,
       ProviderCall.embed "",
       ProviderCall.vectorQuery (b.generate_embeddings "") "euclidean" 2,
       ProviderCall.textQuery (b.timer_llm_claude3 translationPrompt)] := by
  simp [similarity_search]

/-- An error raised inside the per-candidate rendering loop: a failed
Bedrock generation call, a failed `requests.get` on the display asset, or
a failed `io.imread`. -/
inductive StepError where
  | generationUnavailable
  | assetFetchFailed
  | imageReadFailed
deriving DecidableEq, Repr

/-- The template `multi_var_prompt` of the English notebook, applied to
its single `instructions` variable. -/
def multiVarPrompt (instructions : String) : String :=
  "\nHuman:\nYou are an excellent game recommender and we need you to provide summaries and recommendations for games\n\n<Objective>\n- Please include the game titles and game categories in your summaries and recommendations\n- Please provide game descriptions and perform optimized summarization for them\n- Please specify the hardware configurations required to run the games\n- Evaluate the suitability of the games for underage players\n</Objective>\n\n<instructions>\n"
    ++ instructions ++
    "\n</instructions>\nYour objective is to determine based on the goals specified in<Objective>, List the game titles, game categories, game descriptions, and user\x27s system configurations specified in <instructions>, and determine whether each game is suitable for minors, no additional irrelevant text content is required\n\nAssistant:"

/-- The prompt built for one candidate in the rendering loop. -/
def buildPrompt (x : Candidate) : String :=
  multiVarPrompt ("game name:" ++ x.name ++ ".\nGame Description:" ++ x.descriptions ++
    ".\nHardware configuration：" ++ x.recommendation)

/-- The asset URL with its query string stripped, as the loop computes it
from the candidate's url field by splitting on the question mark and
keeping the first piece. -/
def baseUrl (u : String) : String := (u.splitOn "?").headD u

/-- The per-candidate rendering loop at the end of `similarity_search`:
for each merged candidate, build the prompt, call the generation LLM,
fetch the display asset with `requests.get`, and read it with
`io.imread`.  The loop body has no exception handling, so a failing call
raises out of the loop: the function returns the candidates for which the
loop body was entered, paired with the first error if one occurred. -/
def renderLoop (gen : String → Except StepError String)
    (fetch : String → Except StepError Unit) (imread : String → Except StepError Unit) :
    List Candidate → List Candidate × Option StepError
  | [] => ([], none)
  | x :: xs =>
    match gen (buildPrompt x) with
    | Except.error e => ([x], some e)
    | Except.ok _ =>
      match fetch (baseUrl x.url) with
      | Except.error e => ([x], some e)
      | Except.ok _ =>
        match imread (baseUrl x.url) with
        | Except.error e => ([x], some e)
        | Except.ok _ =>
          match renderLoop gen fetch imread xs with
          | (attempted, err) => (x :: attempted, err)

def wG1 : Candidate := ⟨"G1", "dg1", "rg1", "ug1", [], some 3⟩

def wG2 : Candidate := ⟨"G2", "dg2", "rg2", "ug2", [], some 2⟩

def alwaysOk : String → Except StepError Unit := fun _ => Except.ok ()

def failingGen : String → Except StepError String :=
  fun _ => Except.error StepError.generationUnavailable

/-- Claim C6 counterexample: with a generation call that fails on the
first candidate, the rendering loop attempts only that candidate — the
second candidate of the merged result is discarded, contradicting the
claim that generation is attempted for every candidate even when an
earlier generation fails. -/
theorem generation_failure_discards_rest :
    (renderLoop failingGen alwaysOk alwaysOk [wG1, wG2]).1 ≠ [wG1, wG2] := by
  decide

/-- Claim C6 as amended: the rendering loop has no per-candidate error
scoping: a failing generation call makes its candidate the last one
attempted and discards all later candidates; when every generation,
asset-fetch and image-read call succeeds the loop processes every
candidate in order; and the attempted candidates always form a prefix of
the merged result. -/
theorem renderLoop_abort (gen : String → Except StepError String)
    (fetch imread : String → Except StepError Unit) (c : Candidate)
    (cs : List Candidate) (e : StepError) (s : String) :
    renderLoop (fun _ => Except.error e) fetch imread (c :: cs) = ([c], some e) ∧
    renderLoop (fun _ => Except.ok s) (fun _ => Except.ok ()) (fun _ => Except.ok ()) cs =
      (cs, none) ∧
    ∃ t, (renderLoop gen fetch imread cs).1 ++ t = cs := by
  refine ⟨rfl, ?_, ?_⟩
  · induction cs with
    | nil => rfl
    | cons x xs ih => simp [renderLoop, ih]
  · induction cs with
    | nil => exact ⟨[], rfl⟩
    | cons x xs ih =>
      rw [renderLoop]
      cases gen (buildPrompt x) with
      | error e₁ => exact ⟨xs, rfl⟩
      | ok v =>
        cases fetch (baseUrl x.url) with
        | error e₁ => exact ⟨xs, rfl⟩
        | ok u₁ =>
          cases imread (baseUrl x.url) with
          | error e₁ => exact ⟨xs, rfl⟩
          | ok u₂ =>
            obtain ⟨t, ht⟩ := ih
            refine ⟨t, ?_⟩
            simp only
            rw [List.cons_append, ht]

end DocdbVectorSearch
